import Mathlib

/-!
Verification development for the semver_server registry engine
(`src/lib.rs`).  The Rust code is shallowly embedded: machine integers
(`u16`) become `Nat` with explicit range side conditions, `Vec` becomes
`List`, `HashMap<String, Crate>` becomes an association list with the
map operations used by the code, fallible operations return
`Except RepoError`, and mutation is explicit state passing (each mutating
operation returns its result together with the successor state).
Persistence through serde_json is modelled at the structured-document
level: the derived serializers produce a `Json` value tree and the file
system is a partial map from store locations to such documents.
-/

namespace SemverServer

/-! ## SemVer (`struct SemVer { major, minor, patch: u16 }`) -/

structure SemVer where
  major : Nat
  minor : Nat
  patch : Nat
deriving DecidableEq

/-- Side condition carried by the `u16` representation in Rust:
every component fits in 16 bits. -/
def SemVer.wf (v : SemVer) : Prop :=
  v.major < 65536 ∧ v.minor < 65536 ∧ v.patch < 65536

instance (v : SemVer) : Decidable v.wf :=
  inferInstanceAs (Decidable (_ ∧ _ ∧ _))

/-- Embeds the derived `Ord`/`PartialOrd` on `SemVer`: lexicographic
comparison, field by field in declaration order (major, minor, patch). -/
def SemVer.ltb (a b : SemVer) : Bool :=
  decide (a.major < b.major) ||
    (decide (a.major = b.major) && (decide (a.minor < b.minor) ||
      (decide (a.minor = b.minor) && decide (a.patch < b.patch))))

def SemVer.new (major minor patch : Nat) : SemVer :=
  ⟨major, minor, patch⟩

/-! ## Decimal rendering and parsing of version components -/

/-- Decimal digit character for a value below ten (used by the embedding
of `write!("{}", n)` on a `u16`). -/
def decDigit : Nat → Char
  | 0 => '0'
  | 1 => '1'
  | 2 => '2'
  | 3 => '3'
  | 4 => '4'
  | 5 => '5'
  | 6 => '6'
  | 7 => '7'
  | 8 => '8'
  | _ => '9'

/-- Decimal rendering of a natural number, most significant digit
first: the embedding of Rust's decimal `Display` for unsigned integers. -/
def natDecChars (n : Nat) : List Char :=
  if _h : n < 10 then [decDigit n]
  else natDecChars (n / 10) ++ [decDigit (n % 10)]
decreasing_by
  omega

/-- Embeds `impl Display for SemVer`:
`write!(f, "{}.{}.{}", major, minor, patch)`. -/
def SemVer.display (v : SemVer) : String :=
  String.mk (natDecChars v.major ++ '.' :: (natDecChars v.minor ++ '.' :: natDecChars v.patch))

/-- Embeds `str::parse::<u16>` step 1: a non-empty all-digit string is
read as a decimal number, anything else is a parse failure. -/
def parseDigits (l : List Char) : Option Nat :=
  if l = [] then none
  else if l.all Char.isDigit then
    some (l.foldl (fun acc c => acc * 10 + (c.toNat - 48)) 0)
  else none

/-- Embeds `str::parse::<u16>`: an optional leading plus sign, then
decimal digits, and the value must fit in 16 bits (otherwise Rust
reports an overflow error). -/
def parseU16 (l : List Char) : Option Nat :=
  let digits :=
    match l with
    | '+' :: rest => rest
    | _ => l
  match parseDigits digits with
  | none => none
  | some n => if n < 65536 then some n else none

/-- Embeds `s.split(".")` on a character list: splits at every dot,
keeping empty segments; the empty input yields one empty segment. -/
def splitOnDot : List Char → List (List Char)
  | [] => [[]]
  | c :: rest =>
    if c = '.' then [] :: splitOnDot rest
    else
      match splitOnDot rest with
      | [] => [[c]]
      | p :: ps => (c :: p) :: ps

/-- Embeds `enum ParseError { WrongNumberOfParts(usize), ParseInt(..) }`. -/
inductive ParseError where
  | WrongNumberOfParts (n : Nat)
  | ParseInt
deriving DecidableEq

/-- Embeds the checked parser `impl FromStr for SemVer`: split on dots,
demand exactly three segments, then parse each segment as a `u16`,
propagating the first integer-parse failure. -/
def SemVer.fromStr (s : String) : Except ParseError SemVer :=
  let parts := splitOnDot s.data
  match parts with
  | [a, b, c] =>
    match parseU16 a with
    | none => .error .ParseInt
    | some major =>
      match parseU16 b with
      | none => .error .ParseInt
      | some minor =>
        match parseU16 c with
        | none => .error .ParseInt
        | some patch => .ok ⟨major, minor, patch⟩
  | other => .error (.WrongNumberOfParts other.length)

/-- Embeds the unchecked conversion `impl From<&str> for SemVer`: split
on dots, silently drop every segment that does not parse as a `u16`,
and demand (`assert!`) that exactly three parsed values remain.
`none` models the panic of a failed assertion. -/
def SemVer.fromStrUnchecked (s : String) : Option SemVer :=
  let vs := (splitOnDot s.data).filterMap parseU16
  match vs with
  | [a, b, c] => some ⟨a, b, c⟩
  | _ => none

/-! ## Metadata and Crate -/

/-- Embeds `enum CrateKind { Binary, Library }`. -/
inductive CrateKind where
  | Binary
  | Library
deriving DecidableEq

/-- Embeds `struct Metadata { name, author, kind }`. -/
structure Metadata where
  name : String
  author : String
  kind : CrateKind
deriving DecidableEq

/-- Embeds `struct Crate { metadata, release_history }`. -/
structure Crate where
  metadata : Metadata
  release_history : List SemVer
deriving DecidableEq

/-- Embeds `Crate::new`: empty release history. -/
def Crate.new (metadata : Metadata) : Crate :=
  ⟨metadata, []⟩

/-- Embeds `enum RepoError { NotFound, InvalidVersion, AlreadyExists }`. -/
inductive RepoError where
  | NotFound
  | InvalidVersion
  | AlreadyExists
deriving DecidableEq

/-- Embeds `Crate::add_release`: the release is valid when the history
has no last element or the new release is strictly greater than it;
a valid release is pushed, an invalid one leaves the crate unchanged. -/
def Crate.add_release (c : Crate) (release : SemVer) : Except RepoError Unit × Crate :=
  let is_newer_hence_valid :=
    match c.release_history.getLast? with
    | some v => SemVer.ltb v release
    | none => true
  if is_newer_hence_valid then
    (.ok (), { c with release_history := c.release_history ++ [release] })
  else
    (.error .InvalidVersion, c)

/-- Embeds `impl PartialEq for Crate`: equality looks only at
`metadata.name`. -/
def Crate.beq (a b : Crate) : Bool :=
  a.metadata.name == b.metadata.name

/-- Embeds `impl Hash for Crate`: for any hasher (modelled as a string
hash function), the hash of a crate is the hash of `metadata.name`. -/
def Crate.hashWith (h : String → Nat) (c : Crate) : Nat :=
  h c.metadata.name

/-- Models `HashSet<Crate>` insertion: a crate equal (under the
name-only `Crate.beq`) to a present element is not added again. -/
def setInsert (s : List Crate) (c : Crate) : List Crate :=
  if s.any (fun x => Crate.beq x c) then s else s ++ [c]

/-! ## Repository (`HashMap<String, Crate>` as an association list) -/

/-- Embeds `HashMap::get` / `contains_key`: first entry with an exactly
equal key. -/
def lookupKey (k : String) : List (String × Crate) → Option Crate
  | [] => none
  | (k₀, c) :: rest => if k₀ = k then some c else lookupKey k rest

/-- Embeds the in-place mutation through `HashMap::get_mut`: the first
entry whose key equals `k` gets the new value, all others stay. -/
def updateKey (k : String) (c : Crate) : List (String × Crate) → List (String × Crate)
  | [] => []
  | (k₀, c₀) :: rest =>
    if k₀ = k then (k₀, c) :: rest else (k₀, c₀) :: updateKey k c rest

/-- Embeds `struct Repository { crates, store }`; the `PathBuf` store
location is modelled as a string. -/
structure Repository where
  crates : List (String × Crate)
  store : String
deriving DecidableEq

/-- The empty repository bound to a store location: the fallback value
built by `Repository::new` when loading fails. -/
def Repository.emptyRepo (store : String) : Repository :=
  ⟨[], store⟩

/-- Embeds `Repository::find_exact`: exact, case-sensitive key lookup. -/
def Repository.find_exact (r : Repository) (name : String) : Option Crate :=
  lookupKey name r.crates

/-- Substring test on character lists: does the haystack start with the
needle? -/
def startsWithChars : List Char → List Char → Bool
  | _, [] => true
  | [], _ :: _ => false
  | a :: as, b :: bs => a = b && startsWithChars as bs

/-- Embeds `str::contains` with a string pattern: the needle occurs as
a contiguous substring of the haystack. -/
def containsChars (hay needle : List Char) : Bool :=
  match hay with
  | [] => needle.isEmpty
  | _ :: t => startsWithChars hay needle || containsChars t needle

/-- Embeds `str::to_lowercase` (on the ASCII range): lower-case every
character of the string. -/
def strToLower (s : String) : List Char :=
  s.data.map Char.toLower

/-- Embeds `Repository::find_containing`: lower-case the query, then
collect the value of every entry whose lower-cased key contains it. -/
def Repository.find_containing (r : Repository) (name_part : String) : List Crate :=
  let name_part_lower := strToLower name_part
  (r.crates.filter
      (fun kv => containsChars (strToLower kv.1) name_part_lower)).map Prod.snd

/-- Embeds `Repository::add_crate`: reject an already-present name,
otherwise build a fresh crate from the metadata, push the initial
version onto its (empty) history, and insert it keyed by its name. -/
def Repository.add_crate (r : Repository) (metadata : Metadata) (version : SemVer) :
    Except RepoError Unit × Repository :=
  if (lookupKey metadata.name r.crates).isSome then
    (.error .AlreadyExists, r)
  else
    let crt := Crate.new metadata
    let crt := { crt with release_history := crt.release_history ++ [version] }
    (.ok (), { r with crates := (crt.metadata.name, crt) :: r.crates })

/-- Embeds `Repository::add_release`: look the crate up by exact name
(`NotFound` when absent) and delegate to `Crate::add_release`, the
mutated crate replacing the stored one. -/
def Repository.add_release (r : Repository) (name : String) (version : SemVer) :
    Except RepoError Unit × Repository :=
  match lookupKey name r.crates with
  | none => (.error .NotFound, r)
  | some crt =>
    let res := crt.add_release version
    (res.1, { r with crates := updateKey name res.2 r.crates })

/-! ## Reachable registry states -/

/-- One mutating registry operation. -/
inductive Op where
  | addCrate (md : Metadata) (v : SemVer)
  | addRelease (name : String) (v : SemVer)

/-- The successor state of one operation (on failure the operations
leave the state unchanged, as in the Rust code). -/
def Repository.applyOp (r : Repository) : Op → Repository
  | .addCrate md v => (r.add_crate md v).2
  | .addRelease name v => (r.add_release name v).2

/-- The state reached from the empty registry by a sequence of
operations. -/
def Repository.runOps (store : String) (ops : List Op) : Repository :=
  ops.foldl Repository.applyOp (Repository.emptyRepo store)

/-- The admission condition of the specification: the history is empty,
or the candidate is strictly greater than the history's last entry. -/
def ValidNext (h : List SemVer) (v : SemVer) : Prop :=
  h = [] ∨ ∃ l, h.getLast? = some l ∧ SemVer.ltb l v = true

/-- Well-formedness of one stored entry: the key is the crate's name,
the history is non-empty and strictly increasing under SemVer order. -/
def CrateEntryWf (k : String) (c : Crate) : Prop :=
  k = c.metadata.name ∧ c.release_history ≠ [] ∧
    List.Pairwise (fun a b => SemVer.ltb a b = true) c.release_history

/-- Registry well-formedness: every stored entry is well-formed. -/
def Repository.Wf (r : Repository) : Prop :=
  ∀ kc ∈ r.crates, CrateEntryWf kc.1 kc.2

/-! ## Persistence (serde_json at the structured-document level) -/

/-- A structured JSON-like document, the target of the derived
serializers. -/
inductive Json where
  | str (s : String)
  | num (n : Nat)
  | arr (items : List Json)
  | obj (fields : List (String × Json))

/-- Field lookup in a JSON object. -/
def lookupField (k : String) : List (String × Json) → Option Json
  | [] => none
  | (k₀, v) :: rest => if k₀ = k then some v else lookupField k rest

/-- Derived `Serialize` for `SemVer`: a struct becomes an object with
one numeric field per component. -/
def SemVer.toJson (v : SemVer) : Json :=
  .obj [("major", .num v.major), ("minor", .num v.minor), ("patch", .num v.patch)]

/-- Derived `Deserialize` for `SemVer`: all three fields must be
present and each value must fit in a `u16`. -/
def SemVer.fromJson : Json → Option SemVer
  | .obj fields =>
    match lookupField "major" fields, lookupField "minor" fields,
        lookupField "patch" fields with
    | some (.num major), some (.num minor), some (.num patch) =>
      if major < 65536 && minor < 65536 && patch < 65536 then
        some ⟨major, minor, patch⟩
      else none
    | _, _, _ => none
  | _ => none

/-- Derived `Serialize` for `CrateKind`: a unit enum variant becomes
its name as a string. -/
def CrateKind.toJson : CrateKind → Json
  | .Binary => .str "Binary"
  | .Library => .str "Library"

/-- Derived `Deserialize` for `CrateKind`. -/
def CrateKind.fromJson : Json → Option CrateKind
  | .str "Binary" => some .Binary
  | .str "Library" => some .Library
  | _ => none

/-- Derived `Serialize` for `Metadata`. -/
def Metadata.toJson (m : Metadata) : Json :=
  .obj [("name", .str m.name), ("author", .str m.author), ("kind", m.kind.toJson)]

/-- Derived `Deserialize` for `Metadata`. -/
def Metadata.fromJson : Json → Option Metadata
  | .obj fields =>
    match lookupField "name" fields, lookupField "author" fields,
        lookupField "kind" fields with
    | some (.str name), some (.str author), some kj =>
      match CrateKind.fromJson kj with
      | some kind => some ⟨name, author, kind⟩
      | none => none
    | _, _, _ => none
  | _ => none

/-- Decode every element of a JSON array. -/
def decodeList (f : Json → Option SemVer) : List Json → Option (List SemVer)
  | [] => some []
  | j :: rest =>
    match f j, decodeList f rest with
    | some a, some as => some (a :: as)
    | _, _ => none

/-- Derived `Serialize` for `Crate`. -/
def Crate.toJson (c : Crate) : Json :=
  .obj [("metadata", c.metadata.toJson),
    ("release_history", .arr (c.release_history.map SemVer.toJson))]

/-- Derived `Deserialize` for `Crate`. -/
def Crate.fromJson : Json → Option Crate
  | .obj fields =>
    match lookupField "metadata" fields, lookupField "release_history" fields with
    | some mj, some (.arr items) =>
      match Metadata.fromJson mj, decodeList SemVer.fromJson items with
      | some m, some hist => some ⟨m, hist⟩
      | _, _ => none
    | _, _ => none
  | _ => none

/-- Serialize the crates mapping as a JSON object, one field per crate
name. -/
def encodeCrates (l : List (String × Crate)) : List (String × Json) :=
  l.map (fun kc => (kc.1, kc.2.toJson))

/-- Decode a crates-mapping object back into an association list. -/
def decodeCrates : List (String × Json) → Option (List (String × Crate))
  | [] => some []
  | (k, j) :: rest =>
    match Crate.fromJson j, decodeCrates rest with
    | some c, some cs => some ((k, c) :: cs)
    | _, _ => none

/-- Derived `Serialize` for `Repository`: the whole crates mapping and
the store path, as written by the `Drop` implementation at teardown. -/
def Repository.toJson (r : Repository) : Json :=
  .obj [("crates", .obj (encodeCrates r.crates)), ("store", .str r.store)]

/-- Derived `Deserialize` for `Repository`. -/
def Repository.fromJson : Json → Option Repository
  | .obj fields =>
    match lookupField "crates" fields, lookupField "store" fields with
    | some (.obj kvs), some (.str store) =>
      match decodeCrates kvs with
      | some crates => some ⟨crates, store⟩
      | none => none
    | _, _ => none
  | _ => none

/-- Embeds `Repository::new`: the file system is a partial map from
store locations to persisted documents; opening the store and
deserializing a full `Repository` is attempted, and on any failure
(absent file or undecodable contents) the fallback is an empty
repository bound to the requested store location. -/
def Repository.new (fs : String → Option Json) (store : String) : Repository :=
  let maybe_contents : Option Repository :=
    match fs store with
    | some j => Repository.fromJson j
    | none => none
  maybe_contents.getD (Repository.emptyRepo store)

/-! ## Helper lemmas: association-list map operations -/

theorem lookupKey_mem {k : String} {l : List (String × Crate)} {c : Crate}
    (h : lookupKey k l = some c) : (k, c) ∈ l := by
  induction l with
  | nil => simp [lookupKey] at h
  | cons kc rest ih =>
    obtain ⟨k₀, c₀⟩ := kc
    by_cases hk : k₀ = k
    · subst hk
      have h' : c₀ = c := by simpa [lookupKey] using h
      subst h'
      exact List.mem_cons_self _ _
    · simp only [lookupKey, if_neg hk] at h
      exact List.mem_cons_of_mem _ (ih h)

theorem updateKey_self {k : String} {l : List (String × Crate)} {c : Crate}
    (h : lookupKey k l = some c) : updateKey k c l = l := by
  induction l with
  | nil => rfl
  | cons kc rest ih =>
    obtain ⟨k₀, c₀⟩ := kc
    by_cases hk : k₀ = k
    · simp only [lookupKey, if_pos hk, Option.some.injEq] at h
      simp [updateKey, hk, h]
    · simp only [lookupKey, if_neg hk] at h
      simp [updateKey, hk, ih h]

theorem lookupKey_updateKey_eq {k : String} {l : List (String × Crate)} {c c' : Crate}
    (h : lookupKey k l = some c) : lookupKey k (updateKey k c' l) = some c' := by
  induction l with
  | nil => simp [lookupKey] at h
  | cons kc rest ih =>
    obtain ⟨k₀, c₀⟩ := kc
    by_cases hk : k₀ = k
    · simp [updateKey, hk, lookupKey]
    · simp only [lookupKey, if_neg hk] at h
      simp [updateKey, hk, lookupKey, ih h]

theorem lookupKey_updateKey_ne {k k' : String} {l : List (String × Crate)} {c : Crate}
    (h : k' ≠ k) : lookupKey k' (updateKey k c l) = lookupKey k' l := by
  induction l with
  | nil => rfl
  | cons kc rest ih =>
    obtain ⟨k₀, c₀⟩ := kc
    by_cases hk : k₀ = k
    · subst hk
      have hkk : k₀ ≠ k' := fun he => h he.symm
      simp [updateKey, lookupKey, hkk]
    · simp [updateKey, hk, lookupKey, ih]

theorem mem_updateKey {k : String} {c : Crate}
    {kc : String × Crate} : ∀ {l : List (String × Crate)},
    kc ∈ updateKey k c l → kc ∈ l ∨ kc = (k, c) := by
  intro l
  induction l with
  | nil =>
    intro h
    simp [updateKey] at h
  | cons kc₀ rest ih =>
    obtain ⟨k₀, c₀⟩ := kc₀
    intro h
    by_cases hk : k₀ = k
    · subst hk
      simp only [updateKey, if_pos rfl, List.mem_cons, ite_true] at h
      rcases h with h | h
      · exact Or.inr h
      · exact Or.inl (List.mem_cons_of_mem _ h)
    · simp only [updateKey, if_neg hk, List.mem_cons] at h
      rcases h with h | h
      · exact Or.inl (h ▸ List.mem_cons_self _ _)
      · rcases ih h with h' | h'
        · exact Or.inl (List.mem_cons_of_mem _ h')
        · exact Or.inr h'

/-! ## Helper lemmas: SemVer order -/

theorem SemVer.ltb_iff {a b : SemVer} :
    SemVer.ltb a b = true ↔
      a.major < b.major ∨ (a.major = b.major ∧ (a.minor < b.minor ∨
        (a.minor = b.minor ∧ a.patch < b.patch))) := by
  simp [SemVer.ltb]

theorem SemVer.ltb_trans {a b c : SemVer} (h₁ : SemVer.ltb a b = true)
    (h₂ : SemVer.ltb b c = true) : SemVer.ltb a c = true := by
  rw [SemVer.ltb_iff] at h₁ h₂ ⊢
  omega

/-! ## Helper lemmas: the release-admission condition -/

theorem crate_add_release_spec (c : Crate) (v : SemVer) :
    ((c.add_release v).1 = .ok () ↔ ValidNext c.release_history v)
    ∧ ((c.add_release v).1 = .ok () →
        (c.add_release v).2 = { c with release_history := c.release_history ++ [v] })
    ∧ ((c.add_release v).1 ≠ .ok () → c.add_release v = (.error .InvalidVersion, c)) := by
  cases hl : c.release_history.getLast? with
  | none =>
    have hnil : c.release_history = [] := List.getLast?_eq_none_iff.mp hl
    simp [Crate.add_release, ValidNext, hnil]
  | some last =>
    have hne : c.release_history ≠ [] := by
      intro hnil
      rw [hnil] at hl
      simp at hl
    cases hv : SemVer.ltb last v with
    | true => simp [Crate.add_release, ValidNext, hl, hv, hne]
    | false => simp [Crate.add_release, ValidNext, hl, hv, hne]

theorem crate_add_release_fst (c : Crate) (v : SemVer) :
    (c.add_release v).1 = .ok () ∨ (c.add_release v).1 = .error .InvalidVersion := by
  unfold Crate.add_release
  dsimp only
  split
  · exact Or.inl rfl
  · exact Or.inr rfl

/-! ## Claim theorems -/

/-- Claim C1: `Repository::add_release(name, version)` fails with `NotFound`
exactly when no crate is keyed by `name`; otherwise it appends `version` to
that crate's release history exactly when the history is empty or `version`
is strictly greater than the history's last entry under SemVer order, and
otherwise fails with `InvalidVersion` leaving the whole registry unchanged;
`Crate::add_release` obeys the same succeed-iff-strictly-greater-or-empty
contract on its own history. -/
theorem add_release_contract (r : Repository) (name : String) (v : SemVer) :
    ((r.add_release name v).1 = .error .NotFound ↔ lookupKey name r.crates = none)
    ∧ ((r.add_release name v).1 = .error .NotFound → (r.add_release name v).2 = r)
    ∧ (∀ c, lookupKey name r.crates = some c →
        (ValidNext c.release_history v →
          (r.add_release name v).1 = .ok ()
          ∧ lookupKey name (r.add_release name v).2.crates
              = some { c with release_history := c.release_history ++ [v] }
          ∧ ∀ k, k ≠ name →
              lookupKey k (r.add_release name v).2.crates = lookupKey k r.crates)
        ∧ (¬ ValidNext c.release_history v →
            r.add_release name v = (.error .InvalidVersion, r)))
    ∧ (∀ (c : Crate), ((c.add_release v).1 = .ok () ↔ ValidNext c.release_history v)
        ∧ ((c.add_release v).1 = .ok () →
            (c.add_release v).2 = { c with release_history := c.release_history ++ [v] })
        ∧ ((c.add_release v).1 ≠ .ok () →
            c.add_release v = (.error .InvalidVersion, c))) := by
  refine ⟨?_, ?_, ?_, fun c => crate_add_release_spec c v⟩
  · cases hc : lookupKey name r.crates with
    | none => simp [Repository.add_release, hc]
    | some crt =>
      simp only [Repository.add_release, hc]
      rcases crate_add_release_fst crt v with hok | herr
      · simp [hok]
      · simp [herr]
  · cases hc : lookupKey name r.crates with
    | none =>
      intro _
      simp [Repository.add_release, hc]
    | some crt =>
      intro h
      simp only [Repository.add_release, hc] at h
      rcases crate_add_release_fst crt v with hok | herr
      · simp [hok] at h
      · simp [herr] at h
  · intro c hc
    obtain ⟨hiff, hoks, herrs⟩ := crate_add_release_spec c v
    constructor
    · intro hv
      have h1 : (c.add_release v).1 = .ok () := hiff.mpr hv
      have h2 := hoks h1
      refine ⟨?_, ?_, ?_⟩
      · simp [Repository.add_release, hc, h1]
      · simp only [Repository.add_release, hc]
        rw [h2]
        exact lookupKey_updateKey_eq hc
      · intro k hk
        simp only [Repository.add_release, hc]
        exact lookupKey_updateKey_ne hk
    · intro hv
      have h1 : (c.add_release v).1 ≠ .ok () := fun hh => hv (hiff.mp hh)
      have h2 := herrs h1
      simp [Repository.add_release, hc, h2, updateKey_self hc]

/-- Witness for C1 at a concrete registry: a crate named `a` with history
`[1.0.0]` accepts the release `1.0.1`, which is appended. -/
theorem add_release_contract_witness :
    ((Repository.mk [("a", ⟨⟨"a", "au", .Binary⟩, [⟨1, 0, 0⟩]⟩)] "s").add_release
        "a" ⟨1, 0, 1⟩).1 = .ok ()
    ∧ lookupKey "a" ((Repository.mk [("a", ⟨⟨"a", "au", .Binary⟩, [⟨1, 0, 0⟩]⟩)] "s").add_release
        "a" ⟨1, 0, 1⟩).2.crates
      = some ⟨⟨"a", "au", .Binary⟩, [⟨1, 0, 0⟩, ⟨1, 0, 1⟩]⟩ := by
  have h := (add_release_contract
      (Repository.mk [("a", ⟨⟨"a", "au", .Binary⟩, [⟨1, 0, 0⟩]⟩)] "s") "a" ⟨1, 0, 1⟩).2.2.1
    ⟨⟨"a", "au", .Binary⟩, [⟨1, 0, 0⟩]⟩ (by decide)
  have h2 := h.1 (Or.inr ⟨⟨1, 0, 0⟩, rfl, by decide⟩)
  exact ⟨h2.1, h2.2.1⟩

/-- Claim C3: `Repository::add_crate(metadata, initial_version)` fails with
`AlreadyExists` exactly when `metadata.name` already keys an entry (the check
depends only on the name, and failure leaves the registry untouched); on
success it inserts, keyed by `metadata.name`, a crate carrying the metadata
with release history exactly `[initial_version]`, the initial version being
accepted regardless of its value, and all other keys unchanged. -/
theorem add_crate_contract (r : Repository) (md : Metadata) (v : SemVer) :
    ((r.add_crate md v).1 = .error .AlreadyExists ↔ (lookupKey md.name r.crates).isSome = true)
    ∧ ((r.add_crate md v).1 = .error .AlreadyExists → (r.add_crate md v).2 = r)
    ∧ (∀ (md₂ : Metadata) (v₂ : SemVer), md₂.name = md.name →
        ((r.add_crate md₂ v₂).1 = .error .AlreadyExists ↔
          (r.add_crate md v).1 = .error .AlreadyExists))
    ∧ (lookupKey md.name r.crates = none →
        (r.add_crate md v).1 = .ok ()
        ∧ lookupKey md.name (r.add_crate md v).2.crates = some ⟨md, [v]⟩
        ∧ ∀ k, k ≠ md.name →
            lookupKey k (r.add_crate md v).2.crates = lookupKey k r.crates) := by
  have key : ∀ (md' : Metadata) (v' : SemVer),
      ((r.add_crate md' v').1 = .error .AlreadyExists ↔
        (lookupKey md'.name r.crates).isSome = true) := by
    intro md' v'
    by_cases hc : (lookupKey md'.name r.crates).isSome = true
    · simp [Repository.add_crate, hc]
    · simp [Repository.add_crate, hc]
  refine ⟨key md v, ?_, ?_, ?_⟩
  · intro h
    have hc := (key md v).mp h
    simp [Repository.add_crate, hc]
  · intro md₂ v₂ hname
    rw [key md₂ v₂, key md v, hname]
  · intro hnone
    have hc : ¬(lookupKey md.name r.crates).isSome = true := by simp [hnone]
    have hadd : r.add_crate md v
        = (.ok (), { r with crates := (md.name, ⟨md, [v]⟩) :: r.crates }) := by
      simp [Repository.add_crate, hc, Crate.new]
    refine ⟨by rw [hadd], ?_, ?_⟩
    · rw [hadd]
      simp [lookupKey]
    · intro k hk
      rw [hadd]
      simp only [lookupKey]
      rw [if_neg (fun he => hk he.symm)]

/-- Witness for C3 at a concrete registry: adding a crate named `a` to the
empty registry succeeds with history `[1.0.0]`, and a second add with the
same name but different author, kind and version fails `AlreadyExists`. -/
theorem add_crate_contract_witness :
    ((Repository.emptyRepo "s").add_crate ⟨"a", "au", .Binary⟩ ⟨1, 0, 0⟩).1 = .ok ()
    ∧ lookupKey "a" ((Repository.emptyRepo "s").add_crate
        ⟨"a", "au", .Binary⟩ ⟨1, 0, 0⟩).2.crates
      = some ⟨⟨"a", "au", .Binary⟩, [⟨1, 0, 0⟩]⟩
    ∧ ((((Repository.emptyRepo "s").add_crate ⟨"a", "au", .Binary⟩ ⟨1, 0, 0⟩).2.add_crate
        ⟨"a", "bob", .Library⟩ ⟨9, 9, 9⟩).1 = .error .AlreadyExists ↔ True) := by
  have h := (add_crate_contract (Repository.emptyRepo "s") ⟨"a", "au", .Binary⟩ ⟨1, 0, 0⟩).2.2.2
    (by decide)
  refine ⟨h.1, h.2.1, ?_⟩
  have h2 := (add_crate_contract
      (((Repository.emptyRepo "s").add_crate ⟨"a", "au", .Binary⟩ ⟨1, 0, 0⟩).2)
      ⟨"a", "bob", .Library⟩ ⟨9, 9, 9⟩).1
  rw [h2]
  simp [h.2.1]

/-! ## Invariant preservation (C2) -/

theorem pairwise_getLast {R : SemVer → SemVer → Prop} :
    ∀ {h : List SemVer}, List.Pairwise R h → ∀ {l : SemVer}, h.getLast? = some l →
      ∀ a ∈ h, a = l ∨ R a l := by
  intro h
  induction h with
  | nil =>
    intro _ l hl
    simp at hl
  | cons x t ih =>
    intro hp l hl a ha
    cases t with
    | nil =>
      simp at hl ha
      subst hl
      exact Or.inl ha
    | cons y t' =>
      rw [List.getLast?_cons_cons] at hl
      rcases List.mem_cons.mp ha with rfl | hat
      · have hlmem : l ∈ y :: t' := List.mem_of_getLast?_eq_some hl
        exact Or.inr ((List.pairwise_cons.mp hp).1 l hlmem)
      · exact ih (List.pairwise_cons.mp hp).2 hl a hat

theorem pairwise_push {h : List SemVer} {v : SemVer}
    (hp : List.Pairwise (fun a b => SemVer.ltb a b = true) h)
    (hval : ValidNext h v) :
    List.Pairwise (fun a b => SemVer.ltb a b = true) (h ++ [v]) := by
  rcases hval with hnil | ⟨l, hl, hlt⟩
  · subst hnil
    simp
  · rw [List.pairwise_append]
    refine ⟨hp, by simp, ?_⟩
    intro a ha b hb
    rw [List.mem_singleton] at hb
    subst hb
    rcases pairwise_getLast hp hl a ha with rfl | hR
    · exact hlt
    · exact SemVer.ltb_trans hR hlt

theorem wf_emptyRepo (store : String) : (Repository.emptyRepo store).Wf := by
  intro kc hkc
  simp [Repository.emptyRepo] at hkc

theorem wf_add_crate {r : Repository} (hr : r.Wf) (md : Metadata) (v : SemVer) :
    (r.add_crate md v).2.Wf := by
  by_cases hc : (lookupKey md.name r.crates).isSome = true
  · intro kc hkc
    simp only [Repository.add_crate, hc, if_true, ite_true] at hkc
    exact hr kc hkc
  · intro kc hkc
    simp [Repository.add_crate, hc, Crate.new] at hkc
    rcases hkc with rfl | hkc
    · exact ⟨rfl, by simp, by simp⟩
    · exact hr kc hkc

theorem wf_add_release {r : Repository} (hr : r.Wf) (name : String) (v : SemVer) :
    (r.add_release name v).2.Wf := by
  cases hc : lookupKey name r.crates with
  | none =>
    intro kc hkc
    simp only [Repository.add_release, hc] at hkc
    exact hr kc hkc
  | some c =>
    obtain ⟨hiff, hoks, herrs⟩ := crate_add_release_spec c v
    by_cases hv : ValidNext c.release_history v
    · have h1 := hiff.mpr hv
      have h2 := hoks h1
      intro kc hkc
      simp only [Repository.add_release, hc] at hkc
      rcases mem_updateKey hkc with hmem | rfl
      · exact hr _ hmem
      · rw [h2]
        obtain ⟨hn, _, hp⟩ := hr _ (lookupKey_mem hc)
        exact ⟨hn, by simp, pairwise_push hp hv⟩
    · have h2 := herrs (fun hh => hv (hiff.mp hh))
      intro kc hkc
      simp only [Repository.add_release, hc, h2] at hkc
      rw [updateKey_self hc] at hkc
      exact hr _ hkc

theorem runOps_wf (store : String) (ops : List Op) : (Repository.runOps store ops).Wf := by
  suffices h : ∀ (r : Repository), r.Wf → (ops.foldl Repository.applyOp r).Wf by
    exact h _ (wf_emptyRepo store)
  induction ops with
  | nil =>
    intro r hr
    exact hr
  | cons op rest ih =>
    intro r hr
    rw [List.foldl_cons]
    apply ih
    cases op with
    | addCrate md v => exact wf_add_crate hr md v
    | addRelease name v => exact wf_add_release hr name v

/-- Claim C2: in every registry state reachable from the empty registry by
any sequence of add_crate and add_release operations, every key of the
crates mapping equals the `metadata.name` of its value, and every stored
release history is non-empty and strictly increasing under SemVer order
(pairwise strictly less, so no equal or out-of-order entries). -/
theorem registry_invariant (store : String) (ops : List Op) :
    ∀ kc ∈ (Repository.runOps store ops).crates,
      kc.1 = kc.2.metadata.name ∧ kc.2.release_history ≠ []
      ∧ List.Pairwise (fun a b => SemVer.ltb a b = true) kc.2.release_history :=
  runOps_wf store ops

/-- Witness for C2: the state reached by one add_crate and one add_release
satisfies the invariant at its single entry. -/
theorem registry_invariant_witness :
    ("a", (⟨⟨"a", "au", .Binary⟩, [⟨1, 0, 0⟩, ⟨1, 0, 1⟩]⟩ : Crate)).1
        = ("a", (⟨⟨"a", "au", .Binary⟩, [⟨1, 0, 0⟩, ⟨1, 0, 1⟩]⟩ : Crate)).2.metadata.name
    ∧ ("a", (⟨⟨"a", "au", .Binary⟩, [⟨1, 0, 0⟩, ⟨1, 0, 1⟩]⟩ : Crate)).2.release_history ≠ []
    ∧ List.Pairwise (fun a b => SemVer.ltb a b = true)
        ("a", (⟨⟨"a", "au", .Binary⟩, [⟨1, 0, 0⟩, ⟨1, 0, 1⟩]⟩ : Crate)).2.release_history :=
  registry_invariant "s"
    [Op.addCrate ⟨"a", "au", .Binary⟩ ⟨1, 0, 0⟩, Op.addRelease "a" ⟨1, 0, 1⟩]
    ("a", ⟨⟨"a", "au", .Binary⟩, [⟨1, 0, 0⟩, ⟨1, 0, 1⟩]⟩) (by decide)

/-! ## Substring search (C6) -/

theorem containsChars_nil (hay : List Char) : containsChars hay [] = true := by
  cases hay with
  | nil => rfl
  | cons a t => simp [containsChars, startsWithChars]

/-- Claim C6: `find_containing(substring)` returns, as a set, exactly the
stored crates whose lower-cased name contains the lower-cased substring
(case-insensitive substring match); the empty substring returns all
crates.  The operation is a pure function of the registry, so the state
is unchanged by construction. -/
theorem find_containing_contract (r : Repository) (q : String)
    (hwf : ∀ kc ∈ r.crates, kc.1 = kc.2.metadata.name) :
    (∀ c, c ∈ r.find_containing q ↔
      ((∃ k, (k, c) ∈ r.crates)
        ∧ containsChars (strToLower c.metadata.name) (strToLower q) = true))
    ∧ (∀ c, c ∈ r.find_containing "" ↔ ∃ k, (k, c) ∈ r.crates) := by
  have main : ∀ (q' : String) (c : Crate), c ∈ r.find_containing q' ↔
      ((∃ k, (k, c) ∈ r.crates)
        ∧ containsChars (strToLower c.metadata.name) (strToLower q') = true) := by
    intro q' c
    simp only [Repository.find_containing, List.mem_map, List.mem_filter]
    constructor
    · rintro ⟨⟨k', c'⟩, ⟨hmem, hcond⟩, hsnd⟩
      cases hsnd
      have hk := hwf _ hmem
      rw [hk] at hcond
      exact ⟨⟨k', hmem⟩, hcond⟩
    · rintro ⟨⟨k, hmem⟩, hcond⟩
      refine ⟨(k, c), ⟨hmem, ?_⟩, rfl⟩
      have hk := hwf _ hmem
      rw [hk]
      exact hcond
  refine ⟨main q, ?_⟩
  intro c
  rw [main ""]
  have hempty : strToLower "" = [] := rfl
  rw [hempty, containsChars_nil]
  simp

/-- Witness for C6: in a registry holding `linux.exe` and `LINUX.EXE!!`,
the query `NuX` matches `linux.exe` (case-insensitive substring), and the
empty query returns everything. -/
theorem find_containing_contract_witness :
    (∀ kc ∈ (Repository.mk
        [("linux.exe", ⟨⟨"linux.exe", "Linus", .Binary⟩, [⟨1, 0, 0⟩]⟩),
         ("LINUX.EXE!!", ⟨⟨"LINUX.EXE!!", "LINUS", .Binary⟩, [⟨2, 0, 5⟩]⟩)] "s").crates,
      kc.1 = kc.2.metadata.name)
    ∧ ((⟨⟨"linux.exe", "Linus", .Binary⟩, [⟨1, 0, 0⟩]⟩ : Crate) ∈
        (Repository.mk
          [("linux.exe", ⟨⟨"linux.exe", "Linus", .Binary⟩, [⟨1, 0, 0⟩]⟩),
           ("LINUX.EXE!!", ⟨⟨"LINUX.EXE!!", "LINUS", .Binary⟩, [⟨2, 0, 5⟩]⟩)] "s").find_containing
          "NuX"
      ↔ ((∃ k, (k, (⟨⟨"linux.exe", "Linus", .Binary⟩, [⟨1, 0, 0⟩]⟩ : Crate)) ∈
            (Repository.mk
              [("linux.exe", ⟨⟨"linux.exe", "Linus", .Binary⟩, [⟨1, 0, 0⟩]⟩),
               ("LINUX.EXE!!", ⟨⟨"LINUX.EXE!!", "LINUS", .Binary⟩, [⟨2, 0, 5⟩]⟩)] "s").crates)
          ∧ containsChars (strToLower "linux.exe") (strToLower "NuX") = true)) :=
  ⟨by decide,
    (find_containing_contract
      (Repository.mk
        [("linux.exe", ⟨⟨"linux.exe", "Linus", .Binary⟩, [⟨1, 0, 0⟩]⟩),
         ("LINUX.EXE!!", ⟨⟨"LINUX.EXE!!", "LINUS", .Binary⟩, [⟨2, 0, 5⟩]⟩)] "s")
      "NuX" (by decide)).1 ⟨⟨"linux.exe", "Linus", .Binary⟩, [⟨1, 0, 0⟩]⟩⟩

/-! ## Crate identity (C8) -/

/-- Claim C8: equality and hashing of a `Crate` are determined solely by
`metadata.name`: two crates with the same name compare equal and hash
equal for every hasher regardless of differing author, kind or release
history; two crates with different names compare unequal; and a set
built from two same-named crates collapses to one element. -/
theorem crate_identity (a b : Crate) (hash : String → Nat) :
    (Crate.beq a b = true ↔ a.metadata.name = b.metadata.name)
    ∧ (a.metadata.name = b.metadata.name →
        Crate.hashWith hash a = Crate.hashWith hash b)
    ∧ (a.metadata.name ≠ b.metadata.name → Crate.beq a b = false)
    ∧ (a.metadata.name = b.metadata.name → setInsert (setInsert [] a) b = [a]) := by
  refine ⟨?_, ?_, ?_, ?_⟩
  · simp [Crate.beq]
  · intro h
    simp [Crate.hashWith, h]
  · intro h
    simp [Crate.beq, h]
  · intro h
    simp [setInsert, Crate.beq, h]

/-- Witness for C8 at concrete crates sharing the name `x` but nothing
else: they are equal, hash alike, and collapse to one set element. -/
theorem crate_identity_witness :
    (Crate.beq ⟨⟨"x", "alice", .Binary⟩, [⟨1, 0, 0⟩]⟩ ⟨⟨"x", "bob", .Library⟩, []⟩ = true
      ↔ ("x" : String) = "x")
    ∧ Crate.hashWith String.length ⟨⟨"x", "alice", .Binary⟩, [⟨1, 0, 0⟩]⟩
        = Crate.hashWith String.length ⟨⟨"x", "bob", .Library⟩, []⟩
    ∧ setInsert (setInsert [] ⟨⟨"x", "alice", .Binary⟩, [⟨1, 0, 0⟩]⟩)
        ⟨⟨"x", "bob", .Library⟩, []⟩
      = [⟨⟨"x", "alice", .Binary⟩, [⟨1, 0, 0⟩]⟩] := by
  have h := crate_identity ⟨⟨"x", "alice", .Binary⟩, [⟨1, 0, 0⟩]⟩
    ⟨⟨"x", "bob", .Library⟩, []⟩ String.length
  exact ⟨h.1, h.2.1 rfl, h.2.2.2 rfl⟩

/-! ## Name validation (C9) -/

/-- Counterexample to C9 as stated: a reachable registry state carries the
empty string as a key — `add_crate` accepts metadata whose name is empty
and stores the crate under the empty-string key. -/
theorem empty_name_admitted :
    ((Repository.emptyRepo "s").add_crate ⟨"", "author", .Binary⟩ ⟨1, 0, 0⟩).1 = .ok ()
    ∧ lookupKey "" (Repository.runOps "s"
        [Op.addCrate ⟨"", "author", .Binary⟩ ⟨1, 0, 0⟩]).crates
      = some ⟨⟨"", "author", .Binary⟩, [⟨1, 0, 0⟩]⟩ := by
  constructor
  · rfl
  · rfl

/-- Claim C9 (amended): neither `Metadata::new` nor `add_crate` validates
name contents; `add_crate` admits any metadata whose name is not yet a
key — including the empty string — so reachable states may carry an
empty-string key. -/
theorem add_crate_no_name_validation (r : Repository) (md : Metadata) (v : SemVer)
    (h : lookupKey md.name r.crates = none) :
    (r.add_crate md v).1 = .ok ()
    ∧ lookupKey md.name (r.add_crate md v).2.crates = some ⟨md, [v]⟩ := by
  have hc : ¬(lookupKey md.name r.crates).isSome = true := by simp [h]
  constructor
  · simp [Repository.add_crate, hc]
  · simp [Repository.add_crate, hc, Crate.new, lookupKey]

/-- Witness for the amended C9, instantiated at the empty name. -/
theorem add_crate_no_name_validation_witness :
    ((Repository.emptyRepo "s2").add_crate ⟨"", "a", .Library⟩ ⟨2, 0, 0⟩).1 = .ok ()
    ∧ lookupKey "" ((Repository.emptyRepo "s2").add_crate
        ⟨"", "a", .Library⟩ ⟨2, 0, 0⟩).2.crates
      = some ⟨⟨"", "a", .Library⟩, [⟨2, 0, 0⟩]⟩ :=
  add_crate_no_name_validation (Repository.emptyRepo "s2") ⟨"", "a", .Library⟩ ⟨2, 0, 0⟩
    (by decide)

/-! ## Unchecked conversion divergence (C10) -/

/-- Claim C10: the unchecked `From<&str>` conversion is partial and
diverges from the checked parser: it splits on dots, silently discards
segments that do not parse as 16-bit unsigned integers, and asserts that
exactly three remain — so it panics (modelled as `none`) on `1.2` and
`1.2.3.4` and on `junk.2.3` (one surviving-segment short), yet accepts
the malformed `junk.1.2.3` as `1.2.3`, which the checked parser rejects
with an error (wrong part count; `junk.2.3` it rejects with an
integer-parse error). -/
theorem fromStrUnchecked_divergence :
    SemVer.fromStrUnchecked "1.2" = none
    ∧ SemVer.fromStrUnchecked "1.2.3.4" = none
    ∧ SemVer.fromStrUnchecked "junk.1.2.3" = some ⟨1, 2, 3⟩
    ∧ SemVer.fromStr "junk.1.2.3" = .error (.WrongNumberOfParts 4)
    ∧ SemVer.fromStr "1.2" = .error (.WrongNumberOfParts 2)
    ∧ SemVer.fromStr "junk.2.3" = .error .ParseInt
    ∧ SemVer.fromStrUnchecked "junk.2.3" = none
    ∧ SemVer.fromStrUnchecked "1.2.3" = some ⟨1, 2, 3⟩
    ∧ SemVer.fromStr "1.2.3" = .ok ⟨1, 2, 3⟩ := by
  refine ⟨rfl, rfl, rfl, rfl, rfl, rfl, rfl, rfl, rfl⟩

/-! ## Persistence round trip (C4, C5) -/

theorem semver_json_roundtrip {v : SemVer} (h : v.wf) :
    SemVer.fromJson (SemVer.toJson v) = some v := by
  obtain ⟨h1, h2, h3⟩ := h
  simp [SemVer.toJson, SemVer.fromJson, lookupField, h1, h2, h3]

theorem metadata_json_roundtrip (m : Metadata) :
    Metadata.fromJson (Metadata.toJson m) = some m := by
  obtain ⟨name, author, kind⟩ := m
  cases kind <;>
    simp [Metadata.toJson, Metadata.fromJson, CrateKind.toJson, CrateKind.fromJson, lookupField]

theorem decodeList_roundtrip {hist : List SemVer} (h : ∀ v ∈ hist, v.wf) :
    decodeList SemVer.fromJson (hist.map SemVer.toJson) = some hist := by
  induction hist with
  | nil => rfl
  | cons v t ih =>
    have hv := semver_json_roundtrip (h v (List.mem_cons_self _ _))
    have ht := ih (fun x hx => h x (List.mem_cons_of_mem _ hx))
    simp only [List.map_cons, decodeList, hv, ht]

theorem crate_json_roundtrip {c : Crate} (h : ∀ v ∈ c.release_history, v.wf) :
    Crate.fromJson (Crate.toJson c) = some c := by
  obtain ⟨m, hist⟩ := c
  show (match Metadata.fromJson (Metadata.toJson m),
      decodeList SemVer.fromJson (hist.map SemVer.toJson) with
    | some m', some hist' => some (Crate.mk m' hist')
    | _, _ => none) = some (Crate.mk m hist)
  rw [metadata_json_roundtrip, decodeList_roundtrip h]

theorem decodeCrates_roundtrip {l : List (String × Crate)}
    (h : ∀ kc ∈ l, ∀ v ∈ kc.2.release_history, v.wf) :
    decodeCrates (encodeCrates l) = some l := by
  induction l with
  | nil => rfl
  | cons kc rest ih =>
    obtain ⟨k, c⟩ := kc
    have hc := crate_json_roundtrip (h (k, c) (List.mem_cons_self _ _))
    have ih' := ih (fun x hx => h x (List.mem_cons_of_mem _ hx))
    simp only [encodeCrates, List.map_cons] at ih' ⊢
    simp only [decodeCrates, hc, ih']

theorem repository_json_roundtrip {r : Repository}
    (h : ∀ kc ∈ r.crates, ∀ v ∈ kc.2.release_history, v.wf) :
    Repository.fromJson (Repository.toJson r) = some r := by
  obtain ⟨crates, store⟩ := r
  show (match decodeCrates (encodeCrates crates) with
    | some cs => some (Repository.mk cs store)
    | none => none) = some (Repository.mk crates store)
  rw [decodeCrates_roundtrip h]

/-- Claim C4: serializing a registry to its store (the document the
teardown write produces) and then constructing a new registry by loading
from that same store location reproduces the registry exactly — the
same names, each mapped to a crate with the same metadata and the same
ordered release history.  The `u16` bound on every stored version is the
side condition the Rust representation guarantees. -/
theorem save_load_roundtrip (r : Repository) (fs : String → Option Json)
    (hfs : fs r.store = some (Repository.toJson r))
    (hwf : ∀ kc ∈ r.crates, ∀ v ∈ kc.2.release_history, v.wf) :
    Repository.new fs r.store = r := by
  simp [Repository.new, hfs, repository_json_roundtrip hwf]

/-- Witness for C4: a one-crate registry survives the save/load round
trip through its store. -/
theorem save_load_roundtrip_witness :
    Repository.new
      (fun s => if s = "st" then
        some (Repository.toJson
          (Repository.mk [("a", ⟨⟨"a", "au", .Binary⟩, [⟨1, 0, 0⟩]⟩)] "st"))
        else none) "st"
      = Repository.mk [("a", ⟨⟨"a", "au", .Binary⟩, [⟨1, 0, 0⟩]⟩)] "st" :=
  save_load_roundtrip (Repository.mk [("a", ⟨⟨"a", "au", .Binary⟩, [⟨1, 0, 0⟩]⟩)] "st")
    (fun s => if s = "st" then
      some (Repository.toJson
        (Repository.mk [("a", ⟨⟨"a", "au", .Binary⟩, [⟨1, 0, 0⟩]⟩)] "st"))
      else none)
    (by rfl) (by decide)

/-- Claim C5: `Repository::new` never fails outwardly: it is a total
function, and whenever the store location holds nothing or contents that
fail to deserialize, the result is the registry with an empty crates
mapping bound to that same store location. -/
theorem new_never_fails (fs : String → Option Json) (store : String)
    (hfail : ∀ j, fs store = some j → Repository.fromJson j = none) :
    Repository.new fs store = Repository.emptyRepo store := by
  cases hj : fs store with
  | none => simp [Repository.new, hj, Repository.emptyRepo]
  | some j => simp [Repository.new, hj, hfail j hj, Repository.emptyRepo]

/-- Witness for C5: loading from a store holding an undecodable document
yields the empty registry bound to that store. -/
theorem new_never_fails_witness :
    Repository.new (fun _ => some (Json.num 0)) "store.json"
      = Repository.emptyRepo "store.json" :=
  new_never_fails (fun _ => some (Json.num 0)) "store.json"
    (fun j hj => by cases hj; rfl)

/-! ## Parse/format round trip (C7) -/

theorem decDigit_toNat {d : Nat} (h : d < 10) : (decDigit d).toNat = 48 + d := by
  interval_cases d <;> rfl

theorem decDigit_isDigit {d : Nat} (h : d < 10) : (decDigit d).isDigit = true := by
  interval_cases d <;> decide

theorem isDigit_ne_dot {c : Char} (h : c.isDigit = true) : c ≠ '.' := by
  intro he
  rw [he] at h
  exact absurd h (by decide)

theorem isDigit_ne_plus {c : Char} (h : c.isDigit = true) : c ≠ '+' := by
  intro he
  rw [he] at h
  exact absurd h (by decide)

theorem natDecChars_all_digits (n : Nat) : ∀ c ∈ natDecChars n, c.isDigit = true := by
  induction n using Nat.strong_induction_on with
  | _ n ih =>
    by_cases h : n < 10
    · rw [natDecChars, dif_pos h]
      intro c hc
      rw [List.mem_singleton] at hc
      subst hc
      exact decDigit_isDigit h
    · rw [natDecChars, dif_neg h]
      intro c hc
      rcases List.mem_append.mp hc with h1 | h1
      · exact ih (n / 10) (by omega) c h1
      · rw [List.mem_singleton] at h1
        subst h1
        exact decDigit_isDigit (by omega)

theorem natDecChars_ne_nil (n : Nat) : natDecChars n ≠ [] := by
  by_cases h : n < 10
  · rw [natDecChars, dif_pos h]
    simp
  · rw [natDecChars, dif_neg h]
    simp

theorem foldl_digits_concat (l : List Char) (acc : Nat) (c : Char) :
    (l ++ [c]).foldl (fun a ch => a * 10 + (ch.toNat - 48)) acc
      = (l.foldl (fun a ch => a * 10 + (ch.toNat - 48)) acc) * 10 + (c.toNat - 48) := by
  rw [List.foldl_append]
  rfl

theorem natDecChars_val (n : Nat) :
    (natDecChars n).foldl (fun a ch => a * 10 + (ch.toNat - 48)) 0 = n := by
  induction n using Nat.strong_induction_on with
  | _ n ih =>
    by_cases h : n < 10
    · rw [natDecChars, dif_pos h]
      show 0 * 10 + ((decDigit n).toNat - 48) = n
      rw [decDigit_toNat h]
      omega
    · rw [natDecChars, dif_neg h, foldl_digits_concat, ih (n / 10) (by omega),
        decDigit_toNat (show n % 10 < 10 by omega)]
      omega

theorem parseDigits_natDecChars (n : Nat) : parseDigits (natDecChars n) = some n := by
  unfold parseDigits
  rw [if_neg (natDecChars_ne_nil n), if_pos, natDecChars_val]
  rw [List.all_eq_true]
  exact natDecChars_all_digits n

theorem parseU16_natDecChars {n : Nat} (h : n < 65536) :
    parseU16 (natDecChars n) = some n := by
  unfold parseU16
  have hmatch : (match natDecChars n with
      | '+' :: rest => rest
      | _ => natDecChars n) = natDecChars n := by
    split
    · next rest heq =>
      exfalso
      have hdig := natDecChars_all_digits n '+' (by rw [heq]; exact List.mem_cons_self _ _)
      exact absurd hdig (by decide)
    · rfl
  rw [hmatch]
  dsimp only
  rw [parseDigits_natDecChars]
  simp [h]

theorem splitOnDot_ne_nil (l : List Char) : splitOnDot l ≠ [] := by
  cases l with
  | nil => simp [splitOnDot]
  | cons c rest =>
    by_cases h : c = '.'
    · simp [splitOnDot, h]
    · simp only [splitOnDot, if_neg h]
      cases hs : splitOnDot rest <;> simp

theorem splitOnDot_no_dot {l : List Char} (h : ∀ c ∈ l, c ≠ '.') :
    splitOnDot l = [l] := by
  induction l with
  | nil => rfl
  | cons c rest ih =>
    have hc : c ≠ '.' := h c (List.mem_cons_self _ _)
    have hr : splitOnDot rest = [rest] := ih (fun x hx => h x (List.mem_cons_of_mem _ hx))
    simp [splitOnDot, hc, hr]

theorem splitOnDot_append {a rest : List Char} (ha : ∀ c ∈ a, c ≠ '.') :
    splitOnDot (a ++ '.' :: rest) = a :: splitOnDot rest := by
  induction a with
  | nil => simp [splitOnDot]
  | cons c t ih =>
    have hc : c ≠ '.' := ha c (List.mem_cons_self _ _)
    have ht := ih (fun x hx => ha x (List.mem_cons_of_mem _ hx))
    simp only [List.cons_append, splitOnDot, if_neg hc, List.append_eq, ht]

theorem splitOnDot_display (v : SemVer) :
    splitOnDot (SemVer.display v).data
      = [natDecChars v.major, natDecChars v.minor, natDecChars v.patch] := by
  have hmaj : ∀ c ∈ natDecChars v.major, c ≠ '.' :=
    fun c hc => isDigit_ne_dot (natDecChars_all_digits _ c hc)
  have hmin : ∀ c ∈ natDecChars v.minor, c ≠ '.' :=
    fun c hc => isDigit_ne_dot (natDecChars_all_digits _ c hc)
  have hpat : ∀ c ∈ natDecChars v.patch, c ≠ '.' :=
    fun c hc => isDigit_ne_dot (natDecChars_all_digits _ c hc)
  show splitOnDot (natDecChars v.major ++ '.' :: (natDecChars v.minor ++ '.' :: natDecChars v.patch)) = _
  rw [splitOnDot_append hmaj, splitOnDot_append hmin, splitOnDot_no_dot hpat]

/-- Claim C7: for every SemVer value whose components are in the 16-bit
unsigned range, parsing the rendered `major.minor.patch` string with the
checked parser succeeds and returns a structurally equal value. -/
theorem parse_display_roundtrip (v : SemVer) (h : v.wf) :
    SemVer.fromStr (SemVer.display v) = .ok v := by
  obtain ⟨h1, h2, h3⟩ := h
  simp only [SemVer.fromStr, splitOnDot_display, parseU16_natDecChars h1,
    parseU16_natDecChars h2, parseU16_natDecChars h3]

/-- Witness for C7 at `1.22.333`. -/
theorem parse_display_roundtrip_witness :
    SemVer.fromStr (SemVer.display ⟨1, 22, 333⟩) = .ok ⟨1, 22, 333⟩ :=
  parse_display_roundtrip ⟨1, 22, 333⟩ (by decide)

end SemverServer
